import Mathlib

/-!
Verification of the fhcleanup duplicate-file-history cleanup core (src/main.rs).

File names are modelled as `List Char` (the code operates on UTF-8 decoded
`&str` names; names that fail UTF-8 decoding are skipped by the code before
any of the modelled logic runs).  The Rust regex class `\d` is Unicode-aware;
the timestamps produced by the upstream tool are ASCII, and the embedding
models `\d` as the ASCII digit class `Char.isDigit`.  `str::trim` is modelled
by dropping `Char.isWhitespace` characters from both ends.
-/

namespace FHCleanup

/-- One character position check: `l.getD i ' ' = c`. -/
def charIs (l : List Char) (i : Nat) (c : Char) : Bool :=
  l.getD i ' ' == c

/-- One character position check: position `i` holds a digit (regex `\d`). -/
def digitAt (l : List Char) (i : Nat) : Bool :=
  (l.getD i ' ').isDigit

/-- Whether the timestamp marker pattern
`\(\d{4}_\d{2}_\d{2} \d{2}_\d{2}_\d{2} UTC\)\.` (26 characters:
`(YYYY_MM_DD HH_MM_SS UTC).`) matches at the head of `l`.  This is the
anchored form of the source's `FILE_END_REGEX`; `FILE_NAME_REGEX` is the same
pattern followed by `.*`, which matches the empty string, so the two patterns
match at exactly the same positions. -/
def markerShape (l : List Char) : Bool :=
  decide (26 ≤ l.length) &&
  charIs l 0 '(' &&
  digitAt l 1 && digitAt l 2 && digitAt l 3 && digitAt l 4 &&
  charIs l 5 '_' &&
  digitAt l 6 && digitAt l 7 &&
  charIs l 8 '_' &&
  digitAt l 9 && digitAt l 10 &&
  charIs l 11 ' ' &&
  digitAt l 12 && digitAt l 13 &&
  charIs l 14 '_' &&
  digitAt l 15 && digitAt l 16 &&
  charIs l 17 '_' &&
  digitAt l 18 && digitAt l 19 &&
  charIs l 20 ' ' &&
  charIs l 21 'U' && charIs l 22 'T' && charIs l 23 'C' &&
  charIs l 24 ')' && charIs l 25 '.'

/-- `FILE_NAME_REGEX.is_match`: the marker pattern matches at some position
of the name. -/
def hasMarker : List Char → Bool
  | [] => false
  | c :: cs => markerShape (c :: cs) || hasMarker cs

/-- The leftmost match of the marker pattern: returns the text before the
match together with the text after the (26-character) match, or `none` when
the pattern does not occur.  This is one step of `FILE_END_REGEX.split`. -/
def findMarkerSplit : List Char → Option (List Char × List Char)
  | [] => none
  | c :: cs =>
    if markerShape (c :: cs) then some ([], (c :: cs).drop 26)
    else
      match findMarkerSplit cs with
      | some (pre, post) => some (c :: pre, post)
      | none => none

/-- Fuelled worker for `splitOn` (`FILE_END_REGEX.split`): split on every
(leftmost, non-overlapping) occurrence of the marker pattern.  The fuel is
only a termination device; `splitOn` always supplies enough. -/
def splitOnFuel : Nat → List Char → List (List Char)
  | 0, cs => [cs]
  | fuel + 1, cs =>
    match findMarkerSplit cs with
    | none => [cs]
    | some (pre, post) => pre :: splitOnFuel fuel post

/-- `FILE_END_REGEX.split(file_name)`: the fragments of the name between the
marker occurrences (leftmost, non-overlapping — for this marker no two
occurrences can overlap, see `markerShape_drop_eq_false_of_lt`). -/
def splitOn (cs : List Char) : List (List Char) :=
  splitOnFuel cs.length cs

/-- `str::trim`: drop whitespace from both ends. -/
def trimChars (cs : List Char) : List Char :=
  ((cs.dropWhile Char.isWhitespace).reverse.dropWhile Char.isWhitespace).reverse

/-- The canonical ("trimmed") name built by `handle_file`:
`let mut parts = FILE_END_REGEX.split(file_name).collect(); let extension =
parts.pop(); trimmed = parts.map(trim).fold("", +); trimmed.push('.');
trimmed.push_str(extension)`. -/
def canonicalName (cs : List Char) : List Char :=
  let parts := splitOn cs
  let extension := parts.getLastD []
  let trimmed := (parts.dropLast.map trimChars).foldl (· ++ ·) []
  trimmed ++ '.' :: extension

/-- Fuelled worker for `fileNameMatches` (`FILE_NAME_REGEX.find_iter`): the
successive non-overlapping leftmost matches of the marker pattern followed by
`.*`.  The regex `.` does not match `'\n'`, so each match extends from a
marker occurrence to the next newline (or the end of the name). -/
def fileNameMatchesFuel : Nat → List Char → List (List Char)
  | 0, _ => []
  | _ + 1, [] => []
  | fuel + 1, c :: cs =>
    if markerShape (c :: cs) then
      ((c :: cs).take 26 ++ ((c :: cs).drop 26).takeWhile (· != '\n')) ::
        fileNameMatchesFuel fuel (((c :: cs).drop 26).dropWhile (· != '\n'))
    else fileNameMatchesFuel fuel cs

/-- `FILE_NAME_REGEX.find_iter(file_name)`, as the list of matched texts. -/
def fileNameMatches (cs : List Char) : List (List Char) :=
  fileNameMatchesFuel cs.length cs

/-- Whether `DATE_PART_REGEX` (`\d{4}_\d{2}_\d{2} \d{2}_\d{2}_\d{2}`,
19 characters `YYYY_MM_DD HH_MM_SS`) matches at the head of `l`. -/
def dateShapeAt (l : List Char) : Bool :=
  decide (19 ≤ l.length) &&
  digitAt l 0 && digitAt l 1 && digitAt l 2 && digitAt l 3 &&
  charIs l 4 '_' &&
  digitAt l 5 && digitAt l 6 &&
  charIs l 7 '_' &&
  digitAt l 8 && digitAt l 9 &&
  charIs l 10 ' ' &&
  digitAt l 11 && digitAt l 12 &&
  charIs l 13 '_' &&
  digitAt l 14 && digitAt l 15 &&
  charIs l 16 '_' &&
  digitAt l 17 && digitAt l 18

/-- `DATE_PART_REGEX.find`: the leftmost match of the date pattern. -/
def findDatePart : List Char → Option (List Char)
  | [] => none
  | c :: cs =>
    if dateShapeAt (c :: cs) then some ((c :: cs).take 19)
    else findDatePart cs

/-- `chrono::NaiveDateTime` restricted to second precision, as the six
broken-down components. -/
structure NaiveDT where
  year : Nat
  month : Nat
  day : Nat
  hour : Nat
  minute : Nat
  second : Nat
deriving DecidableEq, Repr

def digitVal (c : Char) : Nat := c.toNat - 48

def num2 (l : List Char) (i : Nat) : Nat :=
  10 * digitVal (l.getD i ' ') + digitVal (l.getD (i + 1) ' ')

def num4 (l : List Char) (i : Nat) : Nat :=
  100 * num2 l i + num2 l (i + 2)

/-- Proleptic Gregorian leap year (the calendar used by chrono). -/
def isLeapYear (y : Nat) : Bool :=
  y % 4 == 0 && (y % 100 != 0 || y % 400 == 0)

def daysInMonth (y m : Nat) : Nat :=
  if m == 2 then (if isLeapYear y then 29 else 28)
  else if m == 4 || m == 6 || m == 9 || m == 11 then 30
  else 31

/-- Component validity enforced by chrono when building a `NaiveDateTime`:
month 1–12, day valid for the month (including leap years), hour ≤ 23,
minute ≤ 59, second ≤ 60 (chrono's `%S` accepts a leap second `60`). -/
def validDT (t : NaiveDT) : Bool :=
  decide (1 ≤ t.month) && decide (t.month ≤ 12) &&
  decide (1 ≤ t.day) && decide (t.day ≤ daysInMonth t.year t.month) &&
  decide (t.hour ≤ 23) && decide (t.minute ≤ 59) && decide (t.second ≤ 60)

/-- The six components read off a `YYYY_MM_DD HH_MM_SS` digit text. -/
def dtOfDigits (l : List Char) : NaiveDT :=
  ⟨num4 l 0, num2 l 5, num2 l 8, num2 l 11, num2 l 14, num2 l 17⟩

/-- `NaiveDateTime::parse_from_str(date, "%Y_%m_%d %H_%M_%S")` on the exact
19-character texts produced by `DATE_PART_REGEX.find`: the format must consume
the whole input, the digit groups are read as decimal numbers, and the result
exists iff the components form a valid date-time. -/
def parseNaive (l : List Char) : Option NaiveDT :=
  if dateShapeAt l && l.length == 19 then
    if validDT (dtOfDigits l) then some (dtOfDigits l) else none
  else none

/-- The `date_str` of `handle_file`
(`FILE_NAME_REGEX.find_iter(file_name).last()`) followed by
`DATE_PART_REGEX.find(date_str)`: the digit text handed to the date parse.
`none` models the two panic branches (`expect`/`unwrap_or_else`). -/
def extractDateDigits (cs : List Char) : Option (List Char) :=
  ((fileNameMatches cs).getLast?).bind findDatePart

/-- The `parsed_date` of `handle_file`; `none` models a panic (either of the
two extraction panics or the date-parse panic). -/
def extractParsedDate (cs : List Char) : Option NaiveDT :=
  (extractDateDigits cs).bind parseNaive

/-- The record built by `handle_file` for one matched file. -/
structure FHFile where
  date : NaiveDT
  dirPath : Option (List Char)
  fullName : List Char
deriving DecidableEq, Repr

/-- The chronological order on `NaiveDateTime` (for component-wise valid
date-times this is lexicographic on the components; chrono's `Ord` agrees,
including the leap-second representation, since a leap second sorts after
second 59 of its minute and before the next minute). -/
def NaiveDT.le (a b : NaiveDT) : Prop :=
  a.year < b.year ∨ (a.year = b.year ∧
    (a.month < b.month ∨ (a.month = b.month ∧
      (a.day < b.day ∨ (a.day = b.day ∧
        (a.hour < b.hour ∨ (a.hour = b.hour ∧
          (a.minute < b.minute ∨ (a.minute = b.minute ∧
            a.second ≤ b.second)))))))))

instance : DecidableRel NaiveDT.le := fun a b => by
  unfold NaiveDT.le; infer_instance

/-- The key order used by `file_duplicates.sort_by_key(|f| f.date)`. -/
def fileLE (a b : FHFile) : Prop := NaiveDT.le a.date b.date

instance : DecidableRel fileLE := fun a b => by
  unfold fileLE; infer_instance

instance : IsTotal FHFile fileLE :=
  ⟨fun a b => by unfold fileLE NaiveDT.le; omega⟩

instance : IsTrans FHFile fileLE :=
  ⟨fun a b c => by unfold fileLE NaiveDT.le; omega⟩

instance : IsRefl FHFile fileLE :=
  ⟨fun a => by unfold fileLE NaiveDT.le; omega⟩

/-- `file_duplicates.sort_by_key(|f| f.date)`: a stable sort, ascending by
timestamp (insertion sort with a non-strict order is stable). -/
def sortFiles (files : List FHFile) : List FHFile :=
  List.insertionSort fileLE files

/-- The outcome decided by `handle_results` for one record of a group:
`skip` is the fall-through of the `if`/`else if` chain, where the record is
left entirely untouched. -/
inductive ResolvedAction where
  | rename (f : FHFile) (target : List Char)
  | move (f : FHFile) (tempDir : List Char)
  | delete (f : FHFile)
  | skip (f : FHFile)
deriving DecidableEq, Repr

/-- The default holding directory, used when `--target-folder` is absent. -/
def defaultTempDir : List Char := "./fhcleanup_to_del/".data

/-- The `else` branch of the per-record decision in `handle_results`: purge
deletes, otherwise the record is moved to the holding directory (the
configured target folder — normalized in `main` to end with `/` — or the
default). -/
def disposeAction (purge : Bool) (targetFolder : Option (List Char))
    (f : FHFile) : ResolvedAction :=
  if purge then .delete f
  else .move f (targetFolder.getD defaultTempDir)

/-- The per-group body of `handle_results`: `canonicalExists` models
`Path::new(&trimmed_path).exists()` (so `should_rename` is its negation), the
records are sorted ascending by timestamp, and record `i` of the sorted
sequence is renamed when `should_rename && !keep_names && i == file_count - 1`,
disposed of when `!should_rename || i < file_count - 1`, and left untouched
otherwise. -/
def resolveGroup (canonicalExists keepNames purge : Bool)
    (targetFolder : Option (List Char)) (trimmedName : List Char)
    (fileDuplicates : List FHFile) : List ResolvedAction :=
  let shouldRename := !canonicalExists
  let sorted := sortFiles fileDuplicates
  let fileCount := sorted.length
  sorted.enum.map fun p =>
    if shouldRename && !keepNames && p.1 == fileCount - 1 then
      .rename p.2 trimmedName
    else if !shouldRename || decide (p.1 < fileCount - 1) then
      disposeAction purge targetFolder p.2
    else
      .skip p.2

def isRenameAct : ResolvedAction → Bool
  | .rename _ _ => true
  | _ => false

def isMoveAct : ResolvedAction → Bool
  | .move _ _ => true
  | _ => false

def isDeleteAct : ResolvedAction → Bool
  | .delete _ => true
  | _ => false

def isDisposeAct (a : ResolvedAction) : Bool :=
  isMoveAct a || isDeleteAct a

def countRenames (acts : List ResolvedAction) : Nat :=
  (acts.filter isRenameAct).length

def countMoves (acts : List ResolvedAction) : Nat :=
  (acts.filter isMoveAct).length

def countDeletes (acts : List ResolvedAction) : Nat :=
  (acts.filter isDeleteAct).length

/-- `FHFile::mov`: `target_dir = temp_dir + dir_path.unwrap_or("")`. -/
def movTargetDir (tempDir : List Char) (f : FHFile) : List Char :=
  tempDir ++ f.dirPath.getD []

/-- `FHFile::mov`: `target_name = target_dir + full_name` — the original
(untrimmed) file name under the original relative directory path beneath the
holding root. -/
def movTargetName (tempDir : List Char) (f : FHFile) : List Char :=
  movTargetDir tempDir f ++ f.fullName

/-- The source path used by all three `FHFile` operations:
`dir_path.unwrap_or("./") + full_name`. -/
def sourceName (f : FHFile) : List Char :=
  f.dirPath.getD "./".data ++ f.fullName

/-- The three global counters (`MOVED_COUNT`, `DELETED_COUNT`,
`RENAMED_COUNT`). -/
structure RunCounters where
  moved : Nat
  deleted : Nat
  renamed : Nat
deriving DecidableEq, Repr

/-- Tail of `FHFile::rename`: the counter is bumped only when `fs::rename`
succeeded (`fsOk`); on failure only a warning is printed. -/
def renameStep (c : RunCounters) (fsOk : Bool) : RunCounters :=
  if fsOk then { c with renamed := c.renamed + 1 } else c

/-- Tail of `FHFile::mov`: the counter is bumped only when the relocating
`fs::rename` succeeded.  (A `create_dir_all` failure panics before this point
and aborts the whole process; `fsOk` models the relocation call itself.) -/
def movStep (c : RunCounters) (fsOk : Bool) : RunCounters :=
  if fsOk then { c with moved := c.moved + 1 } else c

/-- Tail of `FHFile::delete`: the counter is bumped only when
`fs::remove_file` succeeded. -/
def deleteStep (c : RunCounters) (fsOk : Bool) : RunCounters :=
  if fsOk then { c with deleted := c.deleted + 1 } else c

/-- Execute one resolved action against the counters, given the success flag
of its filesystem call.  A skipped record performs no filesystem call and
touches no counter. -/
def execStep (c : RunCounters) (step : ResolvedAction × Bool) : RunCounters :=
  match step.1 with
  | .rename _ _ => renameStep c step.2
  | .move _ _ => movStep c step.2
  | .delete _ => deleteStep c step.2
  | .skip _ => c

/-- Execute a run's worth of actions (in any interleaving order — the
counters are atomics and each action touches exactly one of them once). -/
def execAll (c : RunCounters) (steps : List (ResolvedAction × Bool)) :
    RunCounters :=
  steps.foldl execStep c

/-- The per-directory grouping map (`HashMap<String, Vec<FHFile>>`), as an
association list (the hash order is irrelevant to every claim). -/
abbrev FHMap := List (List Char × List FHFile)

/-- `put_multi_map`: append to the vector at `key`, creating it if absent. -/
def put_multi_map : FHMap → List Char → FHFile → FHMap
  | [], key, elem => [(key, [elem])]
  | (k, v) :: rest, key, elem =>
    if k == key then (k, v ++ [elem]) :: rest
    else (k, v) :: put_multi_map rest key elem

/-- `handle_file`: a matching name is parsed and grouped under its canonical
name; a non-matching name is left entirely alone.  `none` models the panic
branches (date extraction or parse failure). -/
def handle_file (fileName : List Char) (m : FHMap)
    (path : Option (List Char)) : Option FHMap :=
  if hasMarker fileName then
    match extractParsedDate fileName with
    | some parsedDate =>
        some (put_multi_map m (canonicalName fileName)
          ⟨parsedDate, path, fileName⟩)
    | none => none
  else some m

/-- The file-type classification of one directory entry
(`DirEntry::file_type`): `other` covers entries that are neither a regular
file nor a directory, e.g. symbolic links. -/
inductive EntryType where
  | file
  | directory
  | other
deriving DecidableEq, Repr

/-- `handle_dir_elem`: a directory entry spawns a subdirectory unit exactly
when recursion is enabled and the entry is a directory; otherwise a regular
file is classified by `handle_file`; every other entry falls through with no
effect.  The result is the updated grouping map and whether a subdirectory
unit was submitted to the pool. -/
def handle_dir_elem (inclSubdir : Bool) (entryType : EntryType)
    (fileName : List Char) (m : FHMap) (path : Option (List Char)) :
    Option (FHMap × Bool) :=
  if inclSubdir && entryType == .directory then some (m, true)
  else if entryType == .file then
    (handle_file fileName m path).map (fun m2 => (m2, false))
  else some (m, false)

/-- The concatenation of the trimmed leading fragments of the split (the part
of the canonical name before the appended dot and extension). -/
def trimmedConcat (cs : List Char) : List Char :=
  ((splitOn cs).dropLast.map trimChars).foldl (· ++ ·) []

/-- The number of steps in a run whose action satisfies `p` and whose
filesystem call succeeded. -/
def countOk (p : ResolvedAction → Bool)
    (steps : List (ResolvedAction × Bool)) : Nat :=
  (steps.filter (fun s => p s.1 && s.2)).length

/-- A default record (only used as the `getLastD` fallback in statements
about non-empty groups). -/
def dummyFile : FHFile := ⟨⟨0, 0, 0, 0, 0, 0⟩, none, []⟩

/-- End-to-end scenario record: `report (2023_01_01 10_00_00 UTC).txt`. -/
def fileA : FHFile :=
  ⟨⟨2023, 1, 1, 10, 0, 0⟩, none, "report (2023_01_01 10_00_00 UTC).txt".data⟩

/-- End-to-end scenario record: `report (2023_01_02 10_00_00 UTC).txt`. -/
def fileB : FHFile :=
  ⟨⟨2023, 1, 2, 10, 0, 0⟩, none, "report (2023_01_02 10_00_00 UTC).txt".data⟩

/-- A stacked file name carrying two marker occurrences with different
dates. -/
def exC2 : List Char :=
  "a (2023_01_01 00_00_00 UTC).b (2024_01_01 00_00_00 UTC).txt".data

/-- A name that matches the marker pattern although its digit groups do not
form a valid date (month 13). -/
def exC3 : List Char := "a (2023_13_01 00_00_00 UTC).txt".data

/-- A matching name whose canonicalization creates a fresh marker: the
parenthesized date-like segment of the fragment is completed by the appended
dot. -/
def exC7 : List Char :=
  "x(1111_11_11 11_11_11 UTC)(2000_01_01 00_00_00 UTC).ext".data

/-! ### Positional reasoning helpers -/

theorem getD_drop (l : List Char) (i j : Nat) :
    (l.drop i).getD j ' ' = l.getD (i + j) ' ' := by
  simp [List.getD_eq_getElem?_getD, List.getElem?_drop]

/-! ### The marker pattern: positional characterization and non-overlap -/

theorem markerShape_eq_true_iff (l : List Char) : markerShape l = true ↔
    (26 ≤ l.length ∧ l.getD 0 ' ' = '(' ∧
     (l.getD 1 ' ').isDigit = true ∧ (l.getD 2 ' ').isDigit = true ∧
     (l.getD 3 ' ').isDigit = true ∧ (l.getD 4 ' ').isDigit = true ∧
     l.getD 5 ' ' = '_' ∧
     (l.getD 6 ' ').isDigit = true ∧ (l.getD 7 ' ').isDigit = true ∧
     l.getD 8 ' ' = '_' ∧
     (l.getD 9 ' ').isDigit = true ∧ (l.getD 10 ' ').isDigit = true ∧
     l.getD 11 ' ' = ' ' ∧
     (l.getD 12 ' ').isDigit = true ∧ (l.getD 13 ' ').isDigit = true ∧
     l.getD 14 ' ' = '_' ∧
     (l.getD 15 ' ').isDigit = true ∧ (l.getD 16 ' ').isDigit = true ∧
     l.getD 17 ' ' = '_' ∧
     (l.getD 18 ' ').isDigit = true ∧ (l.getD 19 ' ').isDigit = true ∧
     l.getD 20 ' ' = ' ' ∧
     l.getD 21 ' ' = 'U' ∧ l.getD 22 ' ' = 'T' ∧ l.getD 23 ' ' = 'C' ∧
     l.getD 24 ' ' = ')' ∧ l.getD 25 ' ' = '.') := by
  simp [markerShape, charIs, digitAt, Bool.and_eq_true, decide_eq_true_eq,
    beq_iff_eq, and_assoc]

theorem markerShape_length {l : List Char} (h : markerShape l = true) :
    26 ≤ l.length :=
  ((markerShape_eq_true_iff l).mp h).1

theorem markerShape_getD_zero {l : List Char} (h : markerShape l = true) :
    l.getD 0 ' ' = '(' :=
  ((markerShape_eq_true_iff l).mp h).2.1

theorem markerShape_not_lparen {l : List Char} (h : markerShape l = true)
    {q : Nat} (h1 : 1 ≤ q) (h25 : q ≤ 25) : ¬ l.getD q ' ' = '(' := by
  rw [markerShape_eq_true_iff] at h
  obtain ⟨-, -, c1, c2, c3, c4, c5, c6, c7, c8, c9, c10, c11, c12, c13, c14,
    c15, c16, c17, c18, c19, c20, c21, c22, c23, c24, c25⟩ := h
  intro hq
  interval_cases q <;> simp_all

/-- No two occurrences of the marker pattern can overlap: the only `'('` in a
marker is its first character. -/
theorem markerShape_drop_eq_false_of_lt {l : List Char}
    (h : markerShape l = true) {q : Nat} (h1 : 1 ≤ q) (h25 : q ≤ 25) :
    markerShape (l.drop q) = false := by
  by_contra hq
  rw [Bool.not_eq_false] at hq
  have h0 := markerShape_getD_zero hq
  rw [getD_drop] at h0
  exact markerShape_not_lparen h h1 h25 (by simpa using h0)

/-! ### `hasMarker` as an existence of a matching position -/

theorem hasMarker_iff_exists (l : List Char) :
    hasMarker l = true ↔ ∃ p, markerShape (l.drop p) = true := by
  induction l with
  | nil =>
    constructor
    · intro h; cases h
    · rintro ⟨p, hp⟩; rw [List.drop_nil] at hp; cases hp
  | cons c cs ih =>
    simp only [hasMarker, Bool.or_eq_true, ih]
    constructor
    · rintro (h | ⟨p, hp⟩)
      · exact ⟨0, h⟩
      · exact ⟨p + 1, hp⟩
    · rintro ⟨p, hp⟩
      cases p with
      | zero => exact Or.inl hp
      | succ p => exact Or.inr ⟨p, hp⟩

theorem hasMarker_eq_false_iff (l : List Char) :
    hasMarker l = false ↔ ∀ p, markerShape (l.drop p) = false := by
  rw [← Bool.not_eq_true, hasMarker_iff_exists]
  push_neg
  simp [Bool.not_eq_true]

/-! ### `findMarkerSplit`: the leftmost occurrence -/

theorem findMarkerSplit_eq_none_iff (l : List Char) :
    findMarkerSplit l = none ↔ hasMarker l = false := by
  induction l with
  | nil => simp [findMarkerSplit, hasMarker]
  | cons c cs ih =>
    rw [findMarkerSplit]
    by_cases hm : markerShape (c :: cs) = true
    · simp [hm, hasMarker]
    · rw [Bool.not_eq_true] at hm
      simp only [hm, if_false, hasMarker, Bool.or_eq_false_iff]
      cases hfm : findMarkerSplit cs with
      | none => simp [hfm, hm, ← ih, hfm]
      | some pp => simp only [hfm] at ih; simp [hm, ← ih, hfm]

theorem findMarkerSplit_spec :
    ∀ {cs pre post : List Char}, findMarkerSplit cs = some (pre, post) →
      ∃ rest, cs = pre ++ rest ∧ markerShape rest = true ∧
        post = rest.drop 26 ∧
        ∀ p, p < pre.length → markerShape (cs.drop p) = false := by
  intro cs
  induction cs with
  | nil => intro pre post h; cases h
  | cons c cs ih =>
    intro pre post h
    rw [findMarkerSplit] at h
    by_cases hm : markerShape (c :: cs) = true
    · rw [if_pos hm] at h
      simp only [Option.some.injEq, Prod.mk.injEq] at h
      obtain ⟨rfl, rfl⟩ := h
      exact ⟨c :: cs, rfl, hm, rfl, fun p hp => absurd hp (Nat.not_lt_zero p)⟩
    · rw [Bool.not_eq_true] at hm
      rw [if_neg (by simp [hm])] at h
      cases hfm : findMarkerSplit cs with
      | none => rw [hfm] at h; cases h
      | some pp =>
        obtain ⟨pre', post'⟩ := pp
        rw [hfm] at h
        simp only [Option.some.injEq, Prod.mk.injEq] at h
        obtain ⟨rfl, rfl⟩ := h
        obtain ⟨rest, hcs, hmk, hpost, hpre⟩ := ih hfm
        refine ⟨rest, by rw [List.cons_append, ← hcs], hmk, hpost, ?_⟩
        intro p hp
        cases p with
        | zero => simpa using hm
        | succ p =>
          rw [List.length_cons, Nat.succ_lt_succ_iff] at hp
          simpa using hpre p hp

theorem findMarkerSplit_post_length {cs pre post : List Char}
    (h : findMarkerSplit cs = some (pre, post)) : post.length < cs.length := by
  obtain ⟨rest, hcs, hmk, hpost, -⟩ := findMarkerSplit_spec h
  have hlen := markerShape_length hmk
  subst hcs hpost
  simp [List.length_append, List.length_drop]
  omega

/-! ### `splitOn`: unfolding -/

theorem splitOnFuel_nil (f : Nat) : splitOnFuel f [] = [[]] := by
  cases f with
  | zero => rfl
  | succ f => simp [splitOnFuel, findMarkerSplit]

theorem splitOnFuel_congr :
    ∀ (f1 : Nat) {f2 : Nat} {cs : List Char}, cs.length ≤ f1 → cs.length ≤ f2 →
      splitOnFuel f1 cs = splitOnFuel f2 cs := by
  intro f1
  induction f1 with
  | zero =>
    intro f2 cs h1 _
    have : cs = [] := List.eq_nil_of_length_eq_zero (Nat.le_zero.mp h1)
    subst this
    rw [splitOnFuel_nil, splitOnFuel_nil]
  | succ f1 ih =>
    intro f2 cs h1 h2
    cases f2 with
    | zero =>
      have : cs = [] := List.eq_nil_of_length_eq_zero (Nat.le_zero.mp h2)
      subst this
      rw [splitOnFuel_nil, splitOnFuel_nil]
    | succ f2 =>
      cases hfm : findMarkerSplit cs with
      | none => simp only [splitOnFuel, hfm]
      | some pp =>
        obtain ⟨pre, post⟩ := pp
        have hlt := findMarkerSplit_post_length hfm
        simp only [splitOnFuel, hfm]
        rw [@ih f2 post (by omega) (by omega)]

theorem splitOn_of_none {cs : List Char} (h : findMarkerSplit cs = none) :
    splitOn cs = [cs] := by
  unfold splitOn
  cases cs with
  | nil => exact splitOnFuel_nil 0
  | cons c cs => rw [List.length_cons]; simp only [splitOnFuel, h]

theorem splitOn_of_some {cs pre post : List Char}
    (h : findMarkerSplit cs = some (pre, post)) :
    splitOn cs = pre :: splitOn post := by
  unfold splitOn
  cases cs with
  | nil => cases h
  | cons c cs =>
    have hlt := findMarkerSplit_post_length h
    rw [List.length_cons]
    simp only [splitOnFuel, h]
    rw [splitOnFuel_congr cs.length (by rw [List.length_cons] at hlt; omega)
      (Nat.le_refl _)]

theorem splitOn_ne_nil (cs : List Char) : splitOn cs ≠ [] := by
  cases hfm : findMarkerSplit cs with
  | none => rw [splitOn_of_none hfm]; simp
  | some pp => obtain ⟨pre, post⟩ := pp; rw [splitOn_of_some hfm]; simp

theorem getLastD_of_ne_nil {α : Type} {l : List α} (h : l ≠ []) (a b : α) :
    l.getLastD a = l.getLastD b := by
  rw [List.getLastD_eq_getLast?, List.getLastD_eq_getLast?,
    List.getLast?_eq_getLast l h]
  rfl

/-! ### The last fragment of the split is the text after the **last**
occurrence of the marker -/

theorem splitOn_last_spec_aux :
    ∀ (n : Nat) (cs : List Char), cs.length ≤ n → hasMarker cs = true →
      ∃ p, markerShape (cs.drop p) = true ∧
        (∀ q, p < q → markerShape (cs.drop q) = false) ∧
        (splitOn cs).getLastD [] = cs.drop (p + 26) := by
  intro n
  induction n with
  | zero =>
    intro cs hlen hm
    have : cs = [] := List.eq_nil_of_length_eq_zero (Nat.le_zero.mp hlen)
    subst this
    cases hm
  | succ n ih =>
    intro cs hlen hm
    cases hfm : findMarkerSplit cs with
    | none =>
      rw [findMarkerSplit_eq_none_iff] at hfm
      rw [hm] at hfm
      cases hfm
    | some pp =>
      obtain ⟨pre, post⟩ := pp
      obtain ⟨rest, hcs, hmk, hpost, hpre⟩ := findMarkerSplit_spec hfm
      have hrest : cs.drop pre.length = rest := by
        rw [hcs, List.drop_left]
      have hdrop : ∀ j, cs.drop (pre.length + j) = rest.drop j := by
        intro j
        rw [← List.drop_drop, hrest]
      have hpostdrop : post = cs.drop (pre.length + 26) := by
        rw [hdrop, hpost]
      have hpostlen : post.length < cs.length := findMarkerSplit_post_length hfm
      by_cases hpm : hasMarker post = true
      · obtain ⟨p', hp1, hp2, hp3⟩ := ih post (by omega) hpm
        refine ⟨pre.length + 26 + p', ?_, ?_, ?_⟩
        · have e1 : pre.length + 26 + p' = pre.length + (26 + p') := by omega
          have e2 : rest.drop (26 + p') = post.drop p' := by
            rw [hpost, List.drop_drop]
          rw [e1, hdrop, e2]
          exact hp1
        · intro q hq
          have hq26 : pre.length + 26 ≤ q := by omega
          have : cs.drop q = post.drop (q - (pre.length + 26)) := by
            rw [hpostdrop, List.drop_drop]
            congr 1
            omega
          rw [this]
          exact hp2 _ (by omega)
        · rw [splitOn_of_some hfm, List.getLastD_cons]
          have hne := splitOn_ne_nil post
          rw [getLastD_of_ne_nil hne pre ([] : List Char), hp3, hpostdrop,
            List.drop_drop]
          congr 1
      · rw [Bool.not_eq_true] at hpm
        refine ⟨pre.length, by rw [hrest]; exact hmk, ?_, ?_⟩
        · intro q hq
          by_cases hq26 : q < pre.length + 26
          · have : cs.drop q = rest.drop (q - pre.length) := by
              rw [← hdrop (q - pre.length)]
              congr 1
              omega
            rw [this]
            exact markerShape_drop_eq_false_of_lt hmk (by omega) (by omega)
          · have : cs.drop q = post.drop (q - (pre.length + 26)) := by
              rw [hpostdrop, List.drop_drop]
              congr 1
              omega
            rw [this]
            exact (hasMarker_eq_false_iff post).mp hpm _
        · have hnone : findMarkerSplit post = none :=
            (findMarkerSplit_eq_none_iff post).mpr hpm
          rw [splitOn_of_some hfm, splitOn_of_none hnone]
          simp [hpostdrop]

theorem splitOn_last_spec {cs : List Char} (hm : hasMarker cs = true) :
    ∃ p, markerShape (cs.drop p) = true ∧
      (∀ q, p < q → markerShape (cs.drop q) = false) ∧
      (splitOn cs).getLastD [] = cs.drop (p + 26) :=
  splitOn_last_spec_aux cs.length cs (Nat.le_refl _) hm

/-- The final fragment of the split never itself contains a marker
occurrence. -/
theorem hasMarker_splitOn_getLastD :
    ∀ (n : Nat) (cs : List Char), cs.length ≤ n →
      hasMarker ((splitOn cs).getLastD []) = false := by
  intro n
  induction n with
  | zero =>
    intro cs hlen
    have : cs = [] := List.eq_nil_of_length_eq_zero (Nat.le_zero.mp hlen)
    subst this
    rw [splitOn_of_none (by rw [findMarkerSplit_eq_none_iff]; rfl)]
    rfl
  | succ n ih =>
    intro cs hlen
    cases hfm : findMarkerSplit cs with
    | none =>
      rw [splitOn_of_none hfm, List.getLastD_cons]
      exact (findMarkerSplit_eq_none_iff cs).mp hfm
    | some pp =>
      obtain ⟨pre, post⟩ := pp
      have hpostlen := findMarkerSplit_post_length hfm
      rw [splitOn_of_some hfm, List.getLastD_cons]
      have hne := splitOn_ne_nil post
      rw [getLastD_of_ne_nil hne pre ([] : List Char)]
      exact ih post (by omega)

/-! ### Markers cannot appear in the canonical name except across fragment
boundaries -/

theorem getD_mem_of_lt {l : List Char} {p : Nat} (h : p < l.length) :
    l.getD p ' ' ∈ l := by
  rw [List.getD_eq_getElem?_getD, List.getElem?_eq_getElem h]
  exact List.getElem_mem h

theorem hasMarker_append_false {xs ys : List Char} (hx : '(' ∉ xs)
    (hy : hasMarker ys = false) : hasMarker (xs ++ ys) = false := by
  rw [hasMarker_eq_false_iff]
  intro p
  by_contra hq
  rw [Bool.not_eq_false] at hq
  have hlen := markerShape_length hq
  rw [List.length_drop, List.length_append] at hlen
  have h0 := markerShape_getD_zero hq
  rw [getD_drop, Nat.add_zero] at h0
  by_cases hp : p < xs.length
  · apply hx
    have hgd : (xs ++ ys).getD p ' ' = xs.getD p ' ' := by
      rw [List.getD_eq_getElem?_getD, List.getD_eq_getElem?_getD,
        List.getElem?_append, if_pos hp]
    rw [hgd] at h0
    rw [← h0]
    exact getD_mem_of_lt hp
  · have hsplit : (xs ++ ys).drop p = ys.drop (p - xs.length) := by
      have h1 : (xs ++ ys).drop p = ((xs ++ ys).drop xs.length).drop (p - xs.length) := by
        rw [List.drop_drop]
        congr 1
        omega
      rw [h1, List.drop_left]
    rw [hsplit] at hq
    rw [(hasMarker_eq_false_iff ys).mp hy (p - xs.length)] at hq
    cases hq

theorem canonicalName_eq (cs : List Char) :
    canonicalName cs = trimmedConcat cs ++ '.' :: (splitOn cs).getLastD [] :=
  rfl

/-- If the trimmed, concatenated fragments contain no `'('`, the canonical
name contains no marker (canonicalization is then idempotent: re-processing
the canonical name is a no-match no-op).  In general a marker can reappear
only when fragment concatenation forms one across a boundary. -/
theorem hasMarker_canonicalName_eq_false {cs : List Char}
    (h : '(' ∉ trimmedConcat cs) : hasMarker (canonicalName cs) = false := by
  rw [canonicalName_eq]
  have hassoc : trimmedConcat cs ++ '.' :: (splitOn cs).getLastD []
      = (trimmedConcat cs ++ ['.']) ++ (splitOn cs).getLastD [] := by
    simp
  rw [hassoc]
  apply hasMarker_append_false
  · intro hmem
    rcases List.mem_append.mp hmem with h1 | h1
    · exact h h1
    · simp at h1
  · exact hasMarker_splitOn_getLastD cs.length cs (Nat.le_refl _)

/-! ### The extraction chain of `handle_file` always reaches the date parse -/

theorem fileNameMatchesFuel_nil (f : Nat) : fileNameMatchesFuel f [] = [] := by
  cases f <;> rfl

theorem fileNameMatchesFuel_congr :
    ∀ (f1 : Nat) {f2 : Nat} {cs : List Char}, cs.length ≤ f1 → cs.length ≤ f2 →
      fileNameMatchesFuel f1 cs = fileNameMatchesFuel f2 cs := by
  intro f1
  induction f1 with
  | zero =>
    intro f2 cs h1 _
    have : cs = [] := List.eq_nil_of_length_eq_zero (Nat.le_zero.mp h1)
    subst this
    rw [fileNameMatchesFuel_nil, fileNameMatchesFuel_nil]
  | succ f1 ih =>
    intro f2 cs h1 h2
    cases f2 with
    | zero =>
      have : cs = [] := List.eq_nil_of_length_eq_zero (Nat.le_zero.mp h2)
      subst this
      rw [fileNameMatchesFuel_nil, fileNameMatchesFuel_nil]
    | succ f2 =>
      cases cs with
      | nil => rfl
      | cons c cs =>
        by_cases hm : markerShape (c :: cs) = true
        · simp only [fileNameMatchesFuel, hm, if_true]
          have hlen : (((c :: cs).drop 26).dropWhile (· != '\n')).length ≤ cs.length := by
            have hsub := List.Sublist.length_le
              (List.dropWhile_sublist (l := (c :: cs).drop 26) (· != '\n'))
            rw [List.length_drop, List.length_cons] at hsub
            omega
          rw [@ih f2 (((c :: cs).drop 26).dropWhile (· != '\n'))
            (by rw [List.length_cons] at h1; omega)
            (by rw [List.length_cons] at h2; omega)]
        · rw [Bool.not_eq_true] at hm
          simp only [fileNameMatchesFuel, hm, Bool.false_eq_true, if_false]
          exact @ih f2 cs (by rw [List.length_cons] at h1; omega)
            (by rw [List.length_cons] at h2; omega)

theorem fileNameMatches_marker {c : Char} {cs : List Char}
    (h : markerShape (c :: cs) = true) :
    fileNameMatches (c :: cs) =
      ((c :: cs).take 26 ++ ((c :: cs).drop 26).takeWhile (· != '\n')) ::
        fileNameMatches (((c :: cs).drop 26).dropWhile (· != '\n')) := by
  unfold fileNameMatches
  rw [List.length_cons]
  simp only [fileNameMatchesFuel, h, if_true]
  congr 1
  apply fileNameMatchesFuel_congr
  · have hsub := List.Sublist.length_le
      (List.dropWhile_sublist (l := (c :: cs).drop 26) (· != '\n'))
    rw [List.length_drop, List.length_cons] at hsub
    omega
  · exact Nat.le_refl _

theorem fileNameMatches_not_marker {c : Char} {cs : List Char}
    (h : markerShape (c :: cs) = false) :
    fileNameMatches (c :: cs) = fileNameMatches cs := by
  unfold fileNameMatches
  rw [List.length_cons]
  simp only [fileNameMatchesFuel, h, Bool.false_eq_true, if_false]

theorem fileNameMatches_ne_nil :
    ∀ {cs : List Char}, hasMarker cs = true → fileNameMatches cs ≠ [] := by
  intro cs
  induction cs with
  | nil => intro h; cases h
  | cons c cs ih =>
    intro h
    by_cases hm : markerShape (c :: cs) = true
    · rw [fileNameMatches_marker hm]
      simp
    · rw [Bool.not_eq_true] at hm
      rw [hasMarker, hm, Bool.false_or] at h
      rw [fileNameMatches_not_marker hm]
      exact ih h

/-- Every text produced by `find_iter` starts with the 26 characters of a
marker occurrence. -/
theorem fileNameMatches_mem :
    ∀ (n : Nat) (cs : List Char), cs.length ≤ n →
      ∀ ms ∈ fileNameMatches cs,
        ∃ rest t, markerShape rest = true ∧ ms = rest.take 26 ++ t := by
  intro n
  induction n with
  | zero =>
    intro cs hlen ms hms
    have : cs = [] := List.eq_nil_of_length_eq_zero (Nat.le_zero.mp hlen)
    subst this
    cases hms
  | succ n ih =>
    intro cs hlen ms hms
    cases cs with
    | nil => cases hms
    | cons c cs =>
      by_cases hm : markerShape (c :: cs) = true
      · rw [fileNameMatches_marker hm] at hms
        rcases List.mem_cons.mp hms with h1 | h1
        · exact ⟨c :: cs, ((c :: cs).drop 26).takeWhile (· != '\n'), hm, h1⟩
        · have hlen2 : (((c :: cs).drop 26).dropWhile (· != '\n')).length ≤ n := by
            have hsub := List.Sublist.length_le
              (List.dropWhile_sublist (l := (c :: cs).drop 26) (· != '\n'))
            rw [List.length_drop, List.length_cons] at hsub
            rw [List.length_cons] at hlen
            omega
          exact ih _ hlen2 ms h1
      · rw [Bool.not_eq_true] at hm
        rw [fileNameMatches_not_marker hm] at hms
        rw [List.length_cons] at hlen
        exact ih cs (by omega) ms hms

theorem dateShapeAt_eq_true_iff (l : List Char) : dateShapeAt l = true ↔
    (19 ≤ l.length ∧
     (l.getD 0 ' ').isDigit = true ∧ (l.getD 1 ' ').isDigit = true ∧
     (l.getD 2 ' ').isDigit = true ∧ (l.getD 3 ' ').isDigit = true ∧
     l.getD 4 ' ' = '_' ∧
     (l.getD 5 ' ').isDigit = true ∧ (l.getD 6 ' ').isDigit = true ∧
     l.getD 7 ' ' = '_' ∧
     (l.getD 8 ' ').isDigit = true ∧ (l.getD 9 ' ').isDigit = true ∧
     l.getD 10 ' ' = ' ' ∧
     (l.getD 11 ' ').isDigit = true ∧ (l.getD 12 ' ').isDigit = true ∧
     l.getD 13 ' ' = '_' ∧
     (l.getD 14 ' ').isDigit = true ∧ (l.getD 15 ' ').isDigit = true ∧
     l.getD 16 ' ' = '_' ∧
     (l.getD 17 ' ').isDigit = true ∧ (l.getD 18 ' ').isDigit = true) := by
  simp [dateShapeAt, charIs, digitAt, Bool.and_eq_true, decide_eq_true_eq,
    beq_iff_eq, and_assoc]

theorem getD_take_append {l t : List Char} {n i : Nat} (hi : i < n)
    (hn : n ≤ l.length) : (l.take n ++ t).getD i ' ' = l.getD i ' ' := by
  rw [List.getD_eq_getElem?_getD, List.getD_eq_getElem?_getD,
    List.getElem?_append, List.getElem?_take]
  rw [if_pos (by rw [List.length_take]; omega), if_pos hi]

theorem findDatePart_shape {l : List Char} (h : dateShapeAt l = true) :
    findDatePart l = some (l.take 19) := by
  cases l with
  | nil =>
    rw [dateShapeAt_eq_true_iff] at h
    have := h.1
    simp at this
  | cons c cs => rw [findDatePart, if_pos h]

theorem findDatePart_not_shape {c : Char} {cs : List Char}
    (h : dateShapeAt (c :: cs) = false) :
    findDatePart (c :: cs) = findDatePart cs := by
  rw [findDatePart, if_neg (by rw [h]; simp)]

/-- `DATE_PART_REGEX.find` applied to a `find_iter` match text: the leftmost
date-pattern match is the date substring of that match's own marker, and it
is well-shaped with exactly 19 characters. -/
theorem findDatePart_of_marker {c : Char} {cs t : List Char}
    (h : markerShape (c :: cs) = true) :
    findDatePart ((c :: cs).take 26 ++ t) = some (cs.take 19) ∧
    dateShapeAt (cs.take 19) = true ∧ (cs.take 19).length = 19 := by
  have hfacts := (markerShape_eq_true_iff (c :: cs)).mp h
  obtain ⟨hlen, h0, h1, h2, h3, h4, h5, h6, h7, h8, h9, h10, h11, h12, h13,
    h14, h15, h16, h17, h18, h19, h20, h21, h22, h23, h24, h25⟩ := hfacts
  rw [List.length_cons] at hlen
  have hcsl : 25 ≤ cs.length := by omega
  simp only [List.getD_cons_succ] at h1 h2 h3 h4 h5 h6 h7 h8 h9 h10 h11 h12
  simp only [List.getD_cons_succ] at h13 h14 h15 h16 h17 h18 h19
  rw [List.getD_cons_zero] at h0
  subst h0
  -- the match text is '(' :: (cs.take 25 ++ t)
  have hms : ('(' :: cs).take 26 ++ t = '(' :: (cs.take 25 ++ t) := by
    rw [List.take_succ_cons, List.cons_append]
  -- positional values of the inner list
  have hpos : ∀ i, i < 25 → (cs.take 25 ++ t).getD i ' ' = cs.getD i ' ' :=
    fun i hi => getD_take_append hi hcsl
  have hshape : dateShapeAt (cs.take 25 ++ t) = true := by
    rw [dateShapeAt_eq_true_iff]
    refine ⟨?_, ?_, ?_, ?_, ?_, ?_, ?_, ?_, ?_, ?_, ?_, ?_, ?_, ?_, ?_, ?_,
      ?_, ?_, ?_, ?_⟩ <;>
      first
        | (rw [List.length_append, List.length_take]; omega)
        | (rw [hpos _ (by omega)]; assumption)
  have hnotshape : dateShapeAt ('(' :: (cs.take 25 ++ t)) = false := by
    by_contra hc
    rw [Bool.not_eq_false, dateShapeAt_eq_true_iff] at hc
    have := hc.2.1
    rw [List.getD_cons_zero] at this
    cases this
  have htake : (cs.take 25 ++ t).take 19 = cs.take 19 := by
    rw [List.take_append_of_le_length (by rw [List.length_take]; omega),
      List.take_take]
    norm_num
  refine ⟨?_, ?_, ?_⟩
  · rw [hms, findDatePart_not_shape hnotshape, findDatePart_shape hshape,
      htake]
  · rw [← htake]
    rw [dateShapeAt_eq_true_iff] at hshape ⊢
    obtain ⟨hl, g0, g1, g2, g3, g4, g5, g6, g7, g8, g9, g10, g11, g12, g13,
      g14, g15, g16, g17, g18⟩ := hshape
    have hpos19 : ∀ i, i < 19 →
        ((cs.take 25 ++ t).take 19).getD i ' ' = (cs.take 25 ++ t).getD i ' ' := by
      intro i hi
      rw [List.getD_eq_getElem?_getD, List.getD_eq_getElem?_getD,
        List.getElem?_take, if_pos hi]
    refine ⟨?_, ?_, ?_, ?_, ?_, ?_, ?_, ?_, ?_, ?_, ?_, ?_, ?_, ?_, ?_, ?_,
      ?_, ?_, ?_, ?_⟩ <;>
      first
        | (rw [List.length_take, List.length_append, List.length_take]; omega)
        | (rw [hpos19 _ (by omega)]; assumption)
  · rw [List.length_take]
    omega

theorem extractDateDigits_of_hasMarker {cs : List Char}
    (hm : hasMarker cs = true) :
    ∃ dd, extractDateDigits cs = some dd ∧ dateShapeAt dd = true ∧
      dd.length = 19 := by
  have hne := fileNameMatches_ne_nil hm
  have hlast := List.getLast?_eq_getLast (fileNameMatches cs) hne
  have hmem : (fileNameMatches cs).getLast hne ∈ fileNameMatches cs :=
    List.getLast_mem hne
  obtain ⟨rest, t, hrest, hms⟩ :=
    fileNameMatches_mem cs.length cs (Nat.le_refl _) _ hmem
  cases rest with
  | nil =>
    have := markerShape_length hrest
    simp at this
  | cons r rest1 =>
    obtain ⟨hfd, hshape, hlen19⟩ := findDatePart_of_marker (t := t) hrest
    refine ⟨rest1.take 19, ?_, hshape, hlen19⟩
    unfold extractDateDigits
    rw [hlast, Option.some_bind, hms, hfd]

theorem extractParsedDate_of_hasMarker {cs : List Char}
    (hm : hasMarker cs = true) :
    ∃ dd, extractDateDigits cs = some dd ∧ dateShapeAt dd = true ∧
      dd.length = 19 ∧
      extractParsedDate cs =
        (if validDT (dtOfDigits dd) = true then some (dtOfDigits dd)
         else none) := by
  obtain ⟨dd, h1, h2, h3⟩ := extractDateDigits_of_hasMarker hm
  refine ⟨dd, h1, h2, h3, ?_⟩
  unfold extractParsedDate
  rw [h1, Option.some_bind]
  unfold parseNaive
  rw [if_pos (by rw [h2, h3]; rfl)]

/-! ### Sorting facts -/

theorem sortFiles_perm (l : List FHFile) : (sortFiles l).Perm l :=
  List.perm_insertionSort fileLE l

theorem sortFiles_sorted (l : List FHFile) : List.Sorted fileLE (sortFiles l) :=
  List.sorted_insertionSort fileLE l

theorem sortFiles_length (l : List FHFile) : (sortFiles l).length = l.length :=
  (sortFiles_perm l).length_eq

theorem sortFiles_ne_nil {l : List FHFile} (h : l ≠ []) : sortFiles l ≠ [] := by
  intro hc
  apply h
  have := (sortFiles_perm l).length_eq
  rw [hc] at this
  exact List.eq_nil_of_length_eq_zero this.symm

theorem mem_sortFiles {l : List FHFile} {f : FHFile} :
    f ∈ sortFiles l ↔ f ∈ l :=
  (sortFiles_perm l).mem_iff

theorem sorted_getLast_max :
    ∀ {l : List FHFile}, List.Sorted fileLE l → ∀ (hne : l ≠ []),
      ∀ f ∈ l, fileLE f (l.getLast hne) := by
  intro l
  induction l with
  | nil => intro _ hne; exact absurd rfl hne
  | cons a l ih =>
    intro hs hne f hf
    cases l with
    | nil =>
      rcases List.mem_cons.mp hf with rfl | hf2
      · exact refl_of fileLE f
      · cases hf2
    | cons b t =>
      rw [List.getLast_cons (by simp)]
      rcases List.mem_cons.mp hf with rfl | hf2
      · exact List.rel_of_sorted_cons hs _ (List.getLast_mem _)
      · exact ih hs.of_cons (by simp) f hf2

/-! ### The per-group loop of `handle_results`, by position -/

theorem enumFrom_map_snd {α β : Type} (k : α → β) :
    ∀ (l : List α) (n : Nat),
      (List.enumFrom n l).map (fun p => k p.2) = l.map k := by
  intro l
  induction l with
  | nil => intro n; rfl
  | cons a l ih =>
    intro n
    rw [List.enumFrom_cons, List.map_cons, List.map_cons, ih]

theorem enumFrom_map_last3 {α β : Type} (g h k : α → β) :
    ∀ (l : List α) (n total : Nat), n + l.length = total → ∀ (hne : l ≠ []),
      (List.enumFrom n l).map
        (fun p => if p.1 = total - 1 then g p.2
                  else if p.1 < total - 1 then h p.2 else k p.2)
        = l.dropLast.map h ++ [g (l.getLast hne)] := by
  intro l
  induction l with
  | nil => intro n total _ hne; exact absurd rfl hne
  | cons a l ih =>
    intro n total htot hne
    cases l with
    | nil =>
      simp only [List.length_cons, List.length_nil] at htot
      simp only [List.enumFrom_cons, List.enumFrom_nil, List.map_cons,
        List.map_nil]
      rw [if_pos (by omega)]
      rfl
    | cons b t =>
      simp only [List.length_cons] at htot
      rw [List.enumFrom_cons]
      simp only [List.map_cons]
      rw [if_neg (by omega), if_pos (by omega)]
      rw [List.dropLast_cons_of_ne_nil (by simp), List.map_cons,
        List.getLast_cons (by simp)]
      rw [ih (n + 1) total (by simp only [List.length_cons]; omega) (by simp)]
      rfl

theorem enumFrom_map_last2 {α β : Type} (h k : α → β) :
    ∀ (l : List α) (n total : Nat), n + l.length = total → ∀ (hne : l ≠ []),
      (List.enumFrom n l).map
        (fun p => if p.1 < total - 1 then h p.2 else k p.2)
        = l.dropLast.map h ++ [k (l.getLast hne)] := by
  intro l
  induction l with
  | nil => intro n total _ hne; exact absurd rfl hne
  | cons a l ih =>
    intro n total htot hne
    cases l with
    | nil =>
      simp only [List.length_cons, List.length_nil] at htot
      simp only [List.enumFrom_cons, List.enumFrom_nil, List.map_cons,
        List.map_nil]
      rw [if_neg (by omega)]
      rfl
    | cons b t =>
      simp only [List.length_cons] at htot
      rw [List.enumFrom_cons]
      simp only [List.map_cons]
      rw [if_pos (by omega)]
      rw [List.dropLast_cons_of_ne_nil (by simp), List.map_cons,
        List.getLast_cons (by simp)]
      rw [ih (n + 1) total (by simp only [List.length_cons]; omega) (by simp)]
      rfl

/-- When a canonical-named file already exists (`should_rename = false`),
every record of the group — in sorted order — is disposed of. -/
theorem resolveGroup_exists_canonical (kN purge : Bool)
    (tf : Option (List Char)) (nm : List Char) (files : List FHFile) :
    resolveGroup true kN purge tf nm files
      = (sortFiles files).map (disposeAction purge tf) := by
  unfold resolveGroup
  simp only [Bool.not_true, Bool.false_and, Bool.false_eq_true, if_false,
    Bool.not_false, Bool.true_or, if_true]
  exact enumFrom_map_snd _ (sortFiles files) 0

/-- With renaming enabled and no pre-existing canonical file, the
chronologically last record is renamed and all earlier ones disposed of. -/
theorem resolveGroup_rename_case (purge : Bool) (tf : Option (List Char))
    (nm : List Char) (files : List FHFile) (hne : sortFiles files ≠ []) :
    resolveGroup false false purge tf nm files
      = (sortFiles files).dropLast.map (disposeAction purge tf)
        ++ [ResolvedAction.rename ((sortFiles files).getLast hne) nm] := by
  unfold resolveGroup
  simp only [Bool.not_false, Bool.true_and, Bool.not_true, Bool.false_or,
    beq_iff_eq, decide_eq_true_eq]
  exact enumFrom_map_last3 (fun f => ResolvedAction.rename f nm)
    (disposeAction purge tf) ResolvedAction.skip (sortFiles files) 0
    (sortFiles files).length (by omega) hne

/-- With keep-names set and no pre-existing canonical file, every record but
the chronologically last is disposed of; the last is left untouched. -/
theorem resolveGroup_keep_names (purge : Bool) (tf : Option (List Char))
    (nm : List Char) (files : List FHFile) (hne : sortFiles files ≠ []) :
    resolveGroup false true purge tf nm files
      = (sortFiles files).dropLast.map (disposeAction purge tf)
        ++ [ResolvedAction.skip ((sortFiles files).getLast hne)] := by
  unfold resolveGroup
  simp only [Bool.not_false, Bool.not_true, Bool.and_false, Bool.false_and,
    Bool.and_self, Bool.false_eq_true, if_false, Bool.false_or,
    decide_eq_true_eq]
  exact enumFrom_map_last2 (disposeAction purge tf) ResolvedAction.skip
    (sortFiles files) 0 (sortFiles files).length (by omega) hne

/-! ### Counting outcomes -/

theorem isRenameAct_disposeAction (purge : Bool) (tf : Option (List Char))
    (f : FHFile) : isRenameAct (disposeAction purge tf f) = false := by
  cases purge <;> rfl

theorem isDisposeAct_disposeAction (purge : Bool) (tf : Option (List Char))
    (f : FHFile) : isDisposeAct (disposeAction purge tf f) = true := by
  cases purge <;> rfl

theorem filter_map_all_true {α : Type} (p : ResolvedAction → Bool)
    (g : α → ResolvedAction) (l : List α) (h : ∀ a, p (g a) = true) :
    ((l.map g).filter p).length = l.length := by
  rw [List.filter_eq_self.mpr
    (by intro a ha; obtain ⟨b, -, rfl⟩ := List.mem_map.mp ha; exact h b),
    List.length_map]

theorem filter_map_all_false {α : Type} (p : ResolvedAction → Bool)
    (g : α → ResolvedAction) (l : List α) (h : ∀ a, p (g a) = false) :
    ((l.map g).filter p).length = 0 := by
  rw [List.filter_eq_nil_iff.mpr
    (by intro a ha; obtain ⟨b, -, rfl⟩ := List.mem_map.mp ha; simp [h b])]
  rfl

theorem countRenames_map_dispose (purge : Bool) (tf : Option (List Char))
    (l : List FHFile) :
    countRenames (l.map (disposeAction purge tf)) = 0 :=
  filter_map_all_false _ _ _ (isRenameAct_disposeAction purge tf)

theorem countRenames_append (l1 l2 : List ResolvedAction) :
    countRenames (l1 ++ l2) = countRenames l1 + countRenames l2 := by
  unfold countRenames
  rw [List.filter_append, List.length_append]

theorem countMoves_append (l1 l2 : List ResolvedAction) :
    countMoves (l1 ++ l2) = countMoves l1 + countMoves l2 := by
  unfold countMoves
  rw [List.filter_append, List.length_append]

theorem countDeletes_append (l1 l2 : List ResolvedAction) :
    countDeletes (l1 ++ l2) = countDeletes l1 + countDeletes l2 := by
  unfold countDeletes
  rw [List.filter_append, List.length_append]

theorem countMoves_add_countDeletes_map_dispose (purge : Bool)
    (tf : Option (List Char)) (l : List FHFile) :
    countMoves (l.map (disposeAction purge tf))
      + countDeletes (l.map (disposeAction purge tf)) = l.length := by
  cases purge with
  | true =>
    unfold countMoves countDeletes
    rw [filter_map_all_false _ _ _ (fun f => rfl),
      filter_map_all_true _ _ _ (fun f => rfl)]
    omega
  | false =>
    unfold countMoves countDeletes
    rw [filter_map_all_true _ _ _ (fun f => rfl),
      filter_map_all_false _ _ _ (fun f => rfl)]
    omega

/-! ### Counters count exactly the confirmed successes -/

theorem execAll_spec :
    ∀ (steps : List (ResolvedAction × Bool)) (c : RunCounters),
      execAll c steps =
        ⟨c.moved + countOk isMoveAct steps,
         c.deleted + countOk isDeleteAct steps,
         c.renamed + countOk isRenameAct steps⟩ := by
  intro steps
  induction steps with
  | nil =>
    intro c
    obtain ⟨cm, cd, cr⟩ := c
    simp [execAll, countOk]
  | cons s t ih =>
    intro c
    obtain ⟨a, ok⟩ := s
    have hstep : execAll c ((a, ok) :: t) = execAll (execStep c (a, ok)) t :=
      rfl
    rw [hstep, ih]
    obtain ⟨cm, cd, cr⟩ := c
    cases a <;> cases ok <;>
      simp [execStep, renameStep, movStep, deleteStep, countOk,
        List.filter_cons, isRenameAct, isMoveAct, isDeleteAct] <;>
      omega

theorem countOk_drop_failed (p : ResolvedAction → Bool)
    (l1 : List (ResolvedAction × Bool)) (a : ResolvedAction)
    (l2 : List (ResolvedAction × Bool)) :
    countOk p (l1 ++ (a, false) :: l2) = countOk p (l1 ++ l2) := by
  unfold countOk
  rw [List.filter_append, List.filter_append, List.filter_cons]
  simp

/-! ### Remaining glue lemmas -/

theorem getLastD_eq_getLast {α : Type} {l : List α} (h : l ≠ []) (d : α) :
    l.getLastD d = l.getLast h := by
  rw [List.getLastD_eq_getLast?, List.getLast?_eq_getLast l h]
  rfl

theorem resolveGroup_sort_nil {cE kN purge : Bool} {tf : Option (List Char)}
    {nm : List Char} {files : List FHFile} (h : sortFiles files = []) :
    resolveGroup cE kN purge tf nm files = [] := by
  simp only [resolveGroup, h]
  rfl

theorem countRenames_singleton_rename (f : FHFile) (nm : List Char) :
    countRenames [ResolvedAction.rename f nm] = 1 := rfl

theorem countRenames_singleton_skip (f : FHFile) :
    countRenames [ResolvedAction.skip f] = 0 := rfl

theorem countMoves_singleton_rename (f : FHFile) (nm : List Char) :
    countMoves [ResolvedAction.rename f nm] = 0 := rfl

theorem countMoves_singleton_skip (f : FHFile) :
    countMoves [ResolvedAction.skip f] = 0 := rfl

theorem countDeletes_singleton_rename (f : FHFile) (nm : List Char) :
    countDeletes [ResolvedAction.rename f nm] = 0 := rfl

theorem countDeletes_singleton_skip (f : FHFile) :
    countDeletes [ResolvedAction.skip f] = 0 := rfl

/-- Every outcome produced by the per-group loop is a rename to the canonical
name, a disposal, or an untouched record. -/
theorem resolveGroup_mem_cases {cE kN purge : Bool} {tf : Option (List Char)}
    {nm : List Char} {files : List FHFile} {a : ResolvedAction}
    (ha : a ∈ resolveGroup cE kN purge tf nm files) :
    (∃ f, a = ResolvedAction.rename f nm) ∨
    (∃ f, a = disposeAction purge tf f) ∨
    (∃ f, a = ResolvedAction.skip f) := by
  simp only [resolveGroup] at ha
  obtain ⟨p, -, rfl⟩ := List.mem_map.mp ha
  split_ifs
  · exact Or.inl ⟨p.2, rfl⟩
  · exact Or.inr (Or.inl ⟨p.2, rfl⟩)
  · exact Or.inr (Or.inr ⟨p.2, rfl⟩)

/-! ## The claims -/

/-- C5: for every duplicate group, if a file with the canonical name already
exists at resolution time, no record is renamed and every record (the whole
sorted group) is disposed of, regardless of group size (including size
one). -/
theorem claim_C5_theorem :
    ∀ (kN purge : Bool) (tf : Option (List Char)) (nm : List Char)
      (files : List FHFile),
      resolveGroup true kN purge tf nm files
        = (sortFiles files).map (disposeAction purge tf)
      ∧ countRenames (resolveGroup true kN purge tf nm files) = 0
      ∧ (∀ a ∈ resolveGroup true kN purge tf nm files, isDisposeAct a = true)
      ∧ (resolveGroup true kN purge tf nm files).length = files.length := by
  intro kN purge tf nm files
  refine ⟨resolveGroup_exists_canonical kN purge tf nm files, ?_, ?_, ?_⟩
  · rw [resolveGroup_exists_canonical]
    exact countRenames_map_dispose purge tf _
  · intro a ha
    rw [resolveGroup_exists_canonical] at ha
    obtain ⟨f, -, rfl⟩ := List.mem_map.mp ha
    exact isDisposeAct_disposeAction purge tf f
  · rw [resolveGroup_exists_canonical, List.length_map, sortFiles_length]

/-- C6: for every matching file name, the canonical name is the concatenation
of the trimmed fragments of the split on every marker occurrence, followed by
a literal dot and the text following the **last** marker occurrence (`p` is
the last position at which the marker pattern matches). -/
theorem claim_C6_theorem :
    ∀ cs : List Char, hasMarker cs = true →
      ∃ p, markerShape (cs.drop p) = true ∧
        (∀ q, p < q → markerShape (cs.drop q) = false) ∧
        canonicalName cs = trimmedConcat cs ++ '.' :: cs.drop (p + 26) := by
  intro cs hm
  obtain ⟨p, h1, h2, h3⟩ := splitOn_last_spec hm
  exact ⟨p, h1, h2, by rw [canonicalName_eq, h3]⟩

/-- C6 witness: the canonical name of `report (2020_05_06 07_08_09 UTC).txt`
is built from the text after its (single, hence last) marker occurrence. -/
theorem claim_C6_witness :
    hasMarker "report (2020_05_06 07_08_09 UTC).txt".data = true
    ∧ (∃ p, markerShape ("report (2020_05_06 07_08_09 UTC).txt".data.drop p)
          = true ∧
        (∀ q, p < q →
          markerShape ("report (2020_05_06 07_08_09 UTC).txt".data.drop q)
            = false) ∧
        canonicalName "report (2020_05_06 07_08_09 UTC).txt".data
          = trimmedConcat "report (2020_05_06 07_08_09 UTC).txt".data
            ++ '.' :: "report (2020_05_06 07_08_09 UTC).txt".data.drop
              (p + 26)) :=
  ⟨by decide, claim_C6_theorem _ (by decide)⟩

/-- C9: each counter is incremented exactly once per confirmed successful
filesystem operation of its kind and never on failure: the final counters add
to the initial ones exactly the number of successful operations of each kind,
and a failed operation contributes nothing — removing it from the run leaves
all counters unchanged, so it cannot affect any other file's contribution in
the same or a different group. -/
theorem claim_C9_theorem :
    (∀ (steps : List (ResolvedAction × Bool)) (c : RunCounters),
        execAll c steps =
          ⟨c.moved + countOk isMoveAct steps,
           c.deleted + countOk isDeleteAct steps,
           c.renamed + countOk isRenameAct steps⟩)
    ∧ (∀ (c : RunCounters) (l1 : List (ResolvedAction × Bool))
        (a : ResolvedAction) (l2 : List (ResolvedAction × Bool)),
        execAll c (l1 ++ (a, false) :: l2) = execAll c (l1 ++ l2)) := by
  refine ⟨execAll_spec, ?_⟩
  intro c l1 a l2
  rw [execAll_spec, execAll_spec, countOk_drop_failed, countOk_drop_failed,
    countOk_drop_failed]

/-- C10: a directory entry that is neither a regular file nor a directory
(e.g. a symbolic link), and a directory entry when recursion is disabled, is
never classified, never reaches timestamp extraction or the grouping map, and
spawns no unit: `handle_dir_elem` returns the map unchanged with no spawn
(and no panic), so no action or counter contribution can ever arise from such
an entry. -/
theorem claim_C10_theorem :
    ∀ (inclSubdir : Bool) (entryType : EntryType) (fileName : List Char)
      (m : FHMap) (path : Option (List Char)),
      (entryType = EntryType.other ∨
        (entryType = EntryType.directory ∧ inclSubdir = false)) →
      handle_dir_elem inclSubdir entryType fileName m path = some (m, false) := by
  intro inclSubdir entryType fileName m path h
  rcases h with rfl | ⟨rfl, rfl⟩
  · cases inclSubdir <;> rfl
  · rfl

/-- C10 witness: a symbolic-link-like entry under an enabled-recursion
configuration is left entirely alone. -/
theorem claim_C10_witness :
    (EntryType.other = EntryType.other ∨
      (EntryType.other = EntryType.directory ∧ true = false))
    ∧ handle_dir_elem true EntryType.other
        "report (2023_01_01 10_00_00 UTC).txt".data [] none
        = some ([], false) :=
  ⟨Or.inl rfl,
   claim_C10_theorem true EntryType.other
     "report (2023_01_01 10_00_00 UTC).txt".data [] none (Or.inl rfl)⟩

/-- C1 counterexample: scenario D (two timestamped `report` files, no
pre-existing `report.txt`, keep-names set, purge unset).  The chronologically
last record is left untouched by the loop's fall-through, so only one record
is moved (moved = 1, not 2) and not every record is disposed of. -/
theorem claim_C1_counterexample :
    resolveGroup false true false none "report.txt".data [fileA, fileB]
      = [ResolvedAction.move fileA defaultTempDir, ResolvedAction.skip fileB]
    ∧ countRenames
        (resolveGroup false true false none "report.txt".data [fileA, fileB])
        = 0
    ∧ countMoves
        (resolveGroup false true false none "report.txt".data [fileA, fileB])
        = 1
    ∧ ¬ countMoves
        (resolveGroup false true false none "report.txt".data [fileA, fileB])
        = 2
    ∧ ¬ (∀ a ∈ resolveGroup false true false none "report.txt".data
          [fileA, fileB], isDisposeAct a = true) := by
  refine ⟨by decide, by decide, by decide, by decide, by decide⟩

/-- C1 (amended): when keep-names is set no record is ever renamed; when a
canonical-named file already exists every record is disposed of; otherwise
every record except the chronologically last is disposed of and the last is
left entirely untouched, so scenario D yields renamed = 0 and
moved = N − 1. -/
theorem claim_C1_theorem :
    ∀ (purge : Bool) (tf : Option (List Char)) (nm : List Char)
      (files : List FHFile), files ≠ [] →
      (∀ cE, countRenames (resolveGroup cE true purge tf nm files) = 0)
      ∧ resolveGroup true true purge tf nm files
          = (sortFiles files).map (disposeAction purge tf)
      ∧ resolveGroup false true purge tf nm files
          = (sortFiles files).dropLast.map (disposeAction purge tf)
            ++ [ResolvedAction.skip ((sortFiles files).getLastD dummyFile)]
      ∧ countMoves (resolveGroup false true purge tf nm files)
          + countDeletes (resolveGroup false true purge tf nm files)
          = files.length - 1 := by
  intro purge tf nm files hne
  have hs : sortFiles files ≠ [] := sortFiles_ne_nil hne
  have hkeep := resolveGroup_keep_names purge tf nm files hs
  rw [← getLastD_eq_getLast hs dummyFile] at hkeep
  refine ⟨?_, resolveGroup_exists_canonical true purge tf nm files, hkeep, ?_⟩
  · intro cE
    cases cE with
    | false =>
      rw [hkeep, countRenames_append, countRenames_map_dispose,
        countRenames_singleton_skip]
    | true =>
      rw [resolveGroup_exists_canonical]
      exact countRenames_map_dispose purge tf _
  · rw [hkeep, countMoves_append, countDeletes_append,
      countMoves_singleton_skip, countDeletes_singleton_skip]
    have hsum := countMoves_add_countDeletes_map_dispose purge tf
      (sortFiles files).dropLast
    rw [List.length_dropLast, sortFiles_length] at hsum
    omega

/-- C1 witness: the amended statement at scenario D's inputs. -/
theorem claim_C1_witness :
    [fileA, fileB] ≠ ([] : List FHFile)
    ∧ ((∀ cE, countRenames
          (resolveGroup cE true false none "report.txt".data [fileA, fileB])
          = 0)
      ∧ resolveGroup true true false none "report.txt".data [fileA, fileB]
          = (sortFiles [fileA, fileB]).map (disposeAction false none)
      ∧ resolveGroup false true false none "report.txt".data [fileA, fileB]
          = (sortFiles [fileA, fileB]).dropLast.map (disposeAction false none)
            ++ [ResolvedAction.skip
                  ((sortFiles [fileA, fileB]).getLastD dummyFile)]
      ∧ countMoves
          (resolveGroup false true false none "report.txt".data
            [fileA, fileB])
          + countDeletes
            (resolveGroup false true false none "report.txt".data
              [fileA, fileB])
          = [fileA, fileB].length - 1) :=
  ⟨by decide,
   claim_C1_theorem false none "report.txt".data [fileA, fileB] (by decide)⟩

/-- C2: on the stacked name `exC2` the code extracts the date embedded in the
**first** marker occurrence (2023-01-01), although the last occurrence is at
position 30 and carries 2024-01-01: `FILE_NAME_REGEX` ends in `.*`, so its
single `find_iter` match starts at the first occurrence and swallows the rest
of the name, and `DATE_PART_REGEX.find` then returns the leftmost date inside
it. -/
theorem claim_C2_theorem :
    hasMarker exC2 = true
    ∧ extractParsedDate exC2 = some ⟨2023, 1, 1, 0, 0, 0⟩
    ∧ markerShape (exC2.drop 30) = true
    ∧ (∀ q, 30 < q → markerShape (exC2.drop q) = false)
    ∧ parseNaive ((exC2.drop 31).take 19) = some ⟨2024, 1, 1, 0, 0, 0⟩ := by
  refine ⟨by decide, by decide, by decide, ?_, by decide⟩
  intro q hq
  by_cases hlen : q < 60
  · have hb : ∀ q, q < 60 → 30 < q → markerShape (exC2.drop q) = false := by
      decide
    exact hb q hlen hq
  · rw [List.drop_eq_nil_of_le (by
      have h59 : exC2.length = 59 := by decide
      omega)]
    decide

/-- C3 counterexample: `exC3` matches the marker pattern, yet the date parse
fails (month 13), so the fatal date-parse branch is reachable after a
successful match. -/
theorem claim_C3_counterexample :
    hasMarker exC3 = true ∧ extractParsedDate exC3 = none := by
  refine ⟨by decide, by decide⟩

/-- C3 (amended): given a regex match the extraction always reaches the parse
with a well-shaped 19-character `YYYY_MM_DD HH_MM_SS` digit text (the
find-last and date-extract steps cannot fail), and the parse succeeds exactly
when the digit groups form a valid calendar date-time; for out-of-range
groups (e.g. month 13) it fails and the code treats that as fatal. -/
theorem claim_C3_theorem :
    ∀ cs : List Char, hasMarker cs = true →
      ∃ dd, extractDateDigits cs = some dd ∧ dateShapeAt dd = true ∧
        dd.length = 19 ∧
        extractParsedDate cs =
          (if validDT (dtOfDigits dd) = true then some (dtOfDigits dd)
           else none) :=
  fun _ hm => extractParsedDate_of_hasMarker hm

/-- C3 witness: the amended statement at a well-formed scenario name. -/
theorem claim_C3_witness :
    hasMarker "report (2023_01_01 10_00_00 UTC).txt".data = true
    ∧ (∃ dd, extractDateDigits "report (2023_01_01 10_00_00 UTC).txt".data
          = some dd
        ∧ dateShapeAt dd = true ∧ dd.length = 19
        ∧ extractParsedDate "report (2023_01_01 10_00_00 UTC).txt".data
            = (if validDT (dtOfDigits dd) = true then some (dtOfDigits dd)
               else none)) :=
  ⟨by decide, claim_C3_theorem _ (by decide)⟩

/-- C4: with renaming enabled and no pre-existing canonical file, the group
resolves to: every record but the chronologically last (in the stable
ascending sort by timestamp) is disposed of, and exactly the last — a member
of the group carrying a maximal timestamp — is renamed to the canonical name;
and a rename never occurs when a canonical file pre-exists or keep-names is
set. -/
theorem claim_C4_theorem :
    ∀ (purge : Bool) (tf : Option (List Char)) (nm : List Char)
      (files : List FHFile), files ≠ [] →
      resolveGroup false false purge tf nm files
        = (sortFiles files).dropLast.map (disposeAction purge tf)
          ++ [ResolvedAction.rename ((sortFiles files).getLastD dummyFile) nm]
      ∧ countRenames (resolveGroup false false purge tf nm files) = 1
      ∧ countMoves (resolveGroup false false purge tf nm files)
          + countDeletes (resolveGroup false false purge tf nm files)
          = files.length - 1
      ∧ (sortFiles files).getLastD dummyFile ∈ files
      ∧ (∀ f ∈ files, fileLE f ((sortFiles files).getLastD dummyFile))
      ∧ (∀ (cE kN purge2 : Bool) (tf2 : Option (List Char)) (nm2 : List Char)
          (files2 : List FHFile), cE = true ∨ kN = true →
          countRenames (resolveGroup cE kN purge2 tf2 nm2 files2) = 0) := by
  intro purge tf nm files hne
  have hs : sortFiles files ≠ [] := sortFiles_ne_nil hne
  have hshape := resolveGroup_rename_case purge tf nm files hs
  rw [← getLastD_eq_getLast hs dummyFile] at hshape
  refine ⟨hshape, ?_, ?_, ?_, ?_, ?_⟩
  · rw [hshape, countRenames_append, countRenames_map_dispose,
      countRenames_singleton_rename]
  · rw [hshape, countMoves_append, countDeletes_append,
      countMoves_singleton_rename, countDeletes_singleton_rename]
    have hsum := countMoves_add_countDeletes_map_dispose purge tf
      (sortFiles files).dropLast
    rw [List.length_dropLast, sortFiles_length] at hsum
    omega
  · rw [getLastD_eq_getLast hs dummyFile]
    exact mem_sortFiles.mp (List.getLast_mem hs)
  · intro f hf
    rw [getLastD_eq_getLast hs dummyFile]
    exact sorted_getLast_max (sortFiles_sorted files) hs f
      (mem_sortFiles.mpr hf)
  · intro cE kN purge2 tf2 nm2 files2 hor
    cases cE with
    | true =>
      rw [resolveGroup_exists_canonical]
      exact countRenames_map_dispose purge2 tf2 _
    | false =>
      have hkN : kN = true := hor.resolve_left (by simp)
      subst hkN
      by_cases hnil : sortFiles files2 = []
      · rw [resolveGroup_sort_nil hnil]
        rfl
      · rw [resolveGroup_keep_names purge2 tf2 nm2 files2 hnil,
          countRenames_append, countRenames_map_dispose,
          countRenames_singleton_skip]

/-- C4 witness: scenario A (two timestamped `report` files, defaults). -/
theorem claim_C4_witness :
    [fileA, fileB] ≠ ([] : List FHFile)
    ∧ (resolveGroup false false false none "report.txt".data [fileA, fileB]
        = (sortFiles [fileA, fileB]).dropLast.map (disposeAction false none)
          ++ [ResolvedAction.rename
                ((sortFiles [fileA, fileB]).getLastD dummyFile)
                "report.txt".data]
      ∧ countRenames
          (resolveGroup false false false none "report.txt".data
            [fileA, fileB]) = 1
      ∧ countMoves
          (resolveGroup false false false none "report.txt".data
            [fileA, fileB])
          + countDeletes
            (resolveGroup false false false none "report.txt".data
              [fileA, fileB])
          = [fileA, fileB].length - 1
      ∧ (sortFiles [fileA, fileB]).getLastD dummyFile ∈ [fileA, fileB]
      ∧ (∀ f ∈ [fileA, fileB],
          fileLE f ((sortFiles [fileA, fileB]).getLastD dummyFile))
      ∧ (∀ (cE kN purge2 : Bool) (tf2 : Option (List Char)) (nm2 : List Char)
          (files2 : List FHFile), cE = true ∨ kN = true →
          countRenames (resolveGroup cE kN purge2 tf2 nm2 files2) = 0)) :=
  ⟨by decide,
   claim_C4_theorem false none "report.txt".data [fileA, fileB] (by decide)⟩

/-- C7 counterexample: `exC7` matches the marker pattern, but its canonical
name still matches it — the parenthesized date-like text of the surviving
fragment is completed into a fresh marker by the appended dot — so
canonicalization is not idempotent. -/
theorem claim_C7_counterexample :
    hasMarker exC7 = true
    ∧ canonicalName exC7 = "x(1111_11_11 11_11_11 UTC).ext".data
    ∧ hasMarker (canonicalName exC7) = true := by
  refine ⟨by decide, by decide, by decide⟩

/-- C7 (amended): a name with no marker is reported as no-match and left
entirely untouched (the grouping map is unchanged, so it is never grouped,
renamed, moved or deleted); canonicalization removes every original marker
occurrence — the extension fragment of the split contains no marker — and it
is idempotent whenever the concatenated trimmed fragments contain no `'('`;
but the canonical name of a matching name can itself match the pattern when
concatenation forms a fresh marker, so idempotence fails in general. -/
theorem claim_C7_theorem :
    (∀ (cs : List Char) (m : FHMap) (path : Option (List Char)),
        hasMarker cs = false → handle_file cs m path = some m)
    ∧ (∀ cs : List Char, hasMarker ((splitOn cs).getLastD []) = false)
    ∧ (∀ cs : List Char, '(' ∉ trimmedConcat cs →
        hasMarker (canonicalName cs) = false) := by
  refine ⟨?_, ?_, ?_⟩
  · intro cs m path h
    unfold handle_file
    rw [h]
    simp
  · intro cs
    exact hasMarker_splitOn_getLastD cs.length cs (Nat.le_refl _)
  · intro cs h
    exact hasMarker_canonicalName_eq_false h

/-- C7 witness: a canonical name is a no-match no-op, and for the ordinary
scenario name the canonicalization is idempotent. -/
theorem claim_C7_witness :
    hasMarker "report.txt".data = false
    ∧ handle_file "report.txt".data [] none = some []
    ∧ hasMarker
        ((splitOn "report (2020_05_06 07_08_09 UTC).txt".data).getLastD [])
        = false
    ∧ '(' ∉ trimmedConcat "report (2020_05_06 07_08_09 UTC).txt".data
    ∧ hasMarker
        (canonicalName "report (2020_05_06 07_08_09 UTC).txt".data)
        = false :=
  ⟨by decide, claim_C7_theorem.1 _ [] none (by decide),
   claim_C7_theorem.2.1 _, by decide, claim_C7_theorem.2.2 _ (by decide)⟩

/-- C8: every disposal of the per-group loop deletes exactly when the purge
flag is set and otherwise moves to the configured holding directory (the
target folder, or the default `./fhcleanup_to_del/`), and the move target
keeps the original file name placed under the original relative directory
path beneath the holding root. -/
theorem claim_C8_theorem :
    ∀ (cE kN purge : Bool) (tf : Option (List Char)) (nm : List Char)
      (files : List FHFile) (a : ResolvedAction),
      a ∈ resolveGroup cE kN purge tf nm files →
      (∀ f, a = ResolvedAction.delete f → purge = true)
      ∧ (∀ f d, a = ResolvedAction.move f d →
          purge = false ∧ d = tf.getD defaultTempDir
          ∧ movTargetName d f
              = tf.getD defaultTempDir ++ (f.dirPath.getD [] ++ f.fullName)) := by
  intro cE kN purge tf nm files a ha
  obtain ⟨f0, rfl⟩ | ⟨f0, rfl⟩ | ⟨f0, rfl⟩ := resolveGroup_mem_cases ha
  · exact ⟨fun f heq => (nomatch heq), fun f d heq => (nomatch heq)⟩
  · unfold disposeAction
    cases purge with
    | false =>
      rw [if_neg (by simp)]
      refine ⟨fun f heq => (nomatch heq), ?_⟩
      intro f d heq
      simp only [ResolvedAction.move.injEq] at heq
      obtain ⟨rfl, rfl⟩ := heq
      refine ⟨rfl, rfl, ?_⟩
      unfold movTargetName movTargetDir
      rw [List.append_assoc]
    | true =>
      rw [if_pos rfl]
      exact ⟨fun f heq => rfl, fun f d heq => (nomatch heq)⟩
  · exact ⟨fun f heq => (nomatch heq), fun f d heq => (nomatch heq)⟩

/-- C8 witness: a single-record group whose canonical file pre-exists, purge
unset: its record is moved to the default holding directory, keeping its name
under its relative path. -/
theorem claim_C8_witness :
    ResolvedAction.move fileA defaultTempDir
      ∈ resolveGroup true false false none "report.txt".data [fileA]
    ∧ ((∀ f, ResolvedAction.move fileA defaultTempDir
          = ResolvedAction.delete f → false = true)
      ∧ (∀ f d, ResolvedAction.move fileA defaultTempDir
          = ResolvedAction.move f d →
          false = false ∧ d = (none : Option (List Char)).getD defaultTempDir
          ∧ movTargetName d f
              = (none : Option (List Char)).getD defaultTempDir
                ++ (f.dirPath.getD [] ++ f.fullName))) :=
  ⟨by decide,
   claim_C8_theorem true false false none "report.txt".data [fileA]
     (ResolvedAction.move fileA defaultTempDir) (by decide)⟩

end FHCleanup
